import Mathlib

/-!
Verification of the FGDB (Functional Graph Database) core: the assignment
parser (`function_analysis.py`), the variable classifier and registration
pass (`configure.py`), and the execution batch loop (`operation.py`).

Python strings are modelled as `String` / `List Char`, timestamps as `Nat`,
`None` as `Option.none`, raised exceptions as `Except.error`, and the
networkx node dictionaries as insertion-ordered association lists.
Functions from the repository's `lib` module (not part of the sources at
hand) are modelled from the spec and marked as such in their doc comments.
-/

/-! ## Assignment parser (`function_analysis.analyze_functions`) -/

/-- Character class `[a-zA-Z0-9_]` of the line pattern. -/
def isIdentChar (c : Char) : Bool :=
  c.isAlpha || c.isDigit || c = '_'

/-- Python `\s` on ASCII input: space, tab, newline, carriage return,
vertical tab, form feed. -/
def isSpaceChar (c : Char) : Bool :=
  c = ' ' || c = '\t' || c = '\n' || c = '\r' || c = '\x0b' || c = '\x0c'

/-- Character class `[a-zA-Z0-9_,\s]` of the input-list group. -/
def isClassChar (c : Char) : Bool :=
  isIdentChar c || isSpaceChar c || c = ','

/-- Python `str.strip()`: drop whitespace from both ends. -/
def pyStrip (cs : List Char) : List Char :=
  ((cs.dropWhile isSpaceChar).reverse.dropWhile isSpaceChar).reverse

/-- Python `str.strip()` at `String` type. -/
def pyStripStr (s : String) : String :=
  (pyStrip s.toList).asString

/-- Consume a nonempty maximal run of characters satisfying `p`
(a greedy `X+` atom); fail when the run is empty. -/
def takeRun (p : Char → Bool) (cs : List Char) : Option (List Char × List Char) :=
  if cs.takeWhile p = [] then none else some (cs.takeWhile p, cs.dropWhile p)

/-- Consume one expected literal character. -/
def expectChar (c : Char) : List Char → Option (List Char)
  | [] => none
  | d :: r => if d = c then some r else none

/-- Greedy `\s*`. -/
def skipSpaces (cs : List Char) : List Char :=
  cs.dropWhile isSpaceChar

/-- The `re.match` of pattern
`([a-zA-Z0-9_]+)\s*=\s*([a-zA-Z0-9_]+)\s*\(\s*([a-zA-Z0-9_,\s]+)\s*\)`
against the start of a line: returns the three captured groups and the
unconsumed remainder (`re.match` anchors only at the start, so trailing
text is left over, not rejected).  Since `\s` is contained in the third
group's class, `\s*([a-zA-Z0-9_,\s]+)\s*\)` matches exactly when a
nonempty maximal class run is followed by `)`; the stored capture is
stripped afterwards, so absorbing the surrounding `\s*` into the run
changes nothing. -/
def matchAssign (cs : List Char) : Option ((List Char × List Char × List Char) × List Char) :=
  match takeRun isIdentChar cs with
  | none => none
  | some (g1, r1) =>
    match expectChar '=' (skipSpaces r1) with
    | none => none
    | some r2 =>
      match takeRun isIdentChar (skipSpaces r2) with
      | none => none
      | some (g2, r3) =>
        match expectChar '(' (skipSpaces r3) with
        | none => none
        | some r4 =>
          match takeRun isClassChar r4 with
          | none => none
          | some (g3, r5) =>
            match expectChar ')' r5 with
            | none => none
            | some r6 => some ((g1, g2, g3), r6)

/-- One `ope_list` entry `[y_var, f_func, x_vars]` of
`function_analysis.analyze_functions`: output variable, function name, and
the raw comma-separated input string (already stripped). -/
structure ParsedLine where
  y_var : String
  f_func : String
  x_vars : String
deriving DecidableEq, Repr

/-- Apply the regex to a (stripped) line and build the stored entry:
`x_vars = match.group(3).strip()`. -/
def matchLineChars (cs : List Char) : Option ParsedLine :=
  (matchAssign cs).map fun m =>
    ⟨(m.1.1).asString, (m.1.2.1).asString, pyStripStr (m.1.2.2).asString⟩

/-- The line loop of `analyze_functions`: strip each line, skip empty and
`#`-comment lines, append a parsed entry on a regex match, and emit a
warning diagnostic (the Python `print`) on any other line.  Returns the
entries in file order together with the diagnostics in file order. -/
def analyze_lines : List String → List ParsedLine × List String
  | [] => ([], [])
  | line :: rest =>
    let l := pyStrip line.toList
    if l = [] then analyze_lines rest
    else if l.head? = some '#' then analyze_lines rest
    else
      match matchLineChars l with
      | some t =>
        let p := analyze_lines rest
        (t :: p.1, p.2)
      | none =>
        let p := analyze_lines rest
        (p.1, ("警告: 行 '" ++ l.asString ++ "' は解析できませんでした。") :: p.2)

/-- Result of Python `open` on a path, as seen by `analyze_functions`:
success with the file's lines, `FileNotFoundError`, or any other
`OSError` (for example `PermissionError`), which the function's
`except FileNotFoundError` clause does not catch. -/
inductive OpenResult where
  | ok (lines : List String)
  | fileNotFound
  | otherError (msg : String)
deriving DecidableEq, Repr

/-- `function_analysis.analyze_functions`: on `FileNotFoundError` print an
error message and return the empty list; otherwise run the line loop.
`Except.error` models an exception propagating out of the function. -/
def analyze_functions (file_path : String) (r : OpenResult) :
    Except String (List ParsedLine × List String) :=
  match r with
  | OpenResult.ok lines => Except.ok (analyze_lines lines)
  | OpenResult.fileNotFound =>
      Except.ok ([], ["エラー: " ++ file_path ++ " というファイルが見つかりません。"])
  | OpenResult.otherError m => Except.error m

/-- Python `str.split(',')`: split on every comma, keeping empty pieces;
the empty string yields `[""]`. -/
def splitComma : List Char → List (List Char)
  | [] => [[]]
  | c :: rest =>
    let r := splitComma rest
    if c = ',' then [] :: r
    else
      match r with
      | [] => [[c]]
      | h :: t => (c :: h) :: t

/-- Python `str.split(',')` at `String` type. -/
def splitCommaStr (s : String) : List String :=
  (splitComma s.toList).map List.asString

/-- `function_analysis.get_independent_vars_list`: split each entry's
`x_vars` on commas, strip each piece, and concatenate in order
(duplicates preserved). -/
def get_independent_vars_list (ope_list : List ParsedLine) : List String :=
  (ope_list.map fun item => (splitCommaStr item.x_vars).map pyStripStr).flatten

/-- `function_analysis.find_pure_independent_vars`:
`[x for x in x_dush if x not in y_list]`. -/
def find_pure_independent_vars (ope_list : List ParsedLine) : List String :=
  let x_dush := get_independent_vars_list ope_list
  let y_list := ope_list.map (·.y_var)
  x_dush.filter fun x => !(y_list.contains x)

/-! ## Parsed operations and the variable classifier (`configure.py`) -/

/-- One parsed operation `(dependent_var, function_name, independent_vars)`
as consumed by `configure.py` and `operation.py`. -/
structure Operation where
  dependent_var : String
  function_name : String
  independent_vars : List String
deriving DecidableEq, Repr

/-- Modelled from the spec: `parse_operation_file` of the `lib` module is
not among the sources at hand.  Per the spec's Assignment Parser contract
it produces, in file order, one triple `(output_name, function_name,
[input_name, ...])` per accepted line, skipping blanks/comments and
dropping malformed lines, with input list elements trimmed of surrounding
whitespace and duplicates preserved — the same line discipline as
`analyze_functions`, with the input string split on commas. -/
def parse_operation_file (lines : List String) : List Operation :=
  (analyze_lines lines).1.map fun t =>
    ⟨t.y_var, t.f_func, (splitCommaStr t.x_vars).map pyStripStr⟩

/-- `configure.py`: `dependent_variables.add(dependent_var)` over the
operations (Python set, modelled as `Finset`). -/
def dependent_variables (ops : List Operation) : Finset String :=
  ops.foldl (fun s op => insert op.dependent_var s) ∅

/-- `configure.py`: `functions.add(function_name)` over the operations. -/
def classifier_functions (ops : List Operation) : Finset String :=
  ops.foldl (fun s op => insert op.function_name s) ∅

/-- `configure.py`: `independent_variables.update(independent_vars)` over
the operations. -/
def independent_variables (ops : List Operation) : Finset String :=
  ops.foldl (fun s op => s ∪ op.independent_vars.toFinset) ∅

/-- `configure.py`:
`pure_independent_vars = independent_variables - dependent_variables`. -/
def pure_independent_vars (ops : List Operation) : Finset String :=
  independent_variables ops \ dependent_variables ops

/-- `configure.py`:
`intermediate_vars = independent_variables & dependent_variables`. -/
def intermediate_vars (ops : List Operation) : Finset String :=
  independent_variables ops ∩ dependent_variables ops

/-! ## Graph store (networkx graphs and the FGDB aggregate) -/

/-- Attribute bag of an Operation Graph node:
`node_type="data_block"`, `data_type`, `created_at` (a timestamp or
Python `None`). -/
structure OgAttrs where
  node_type : String
  data_type : String
  created_at : Option Nat
deriving DecidableEq, Repr

/-- The OG node dictionary: insertion-ordered association list, one entry
per node name (networkx `DiGraph.nodes`). -/
abbrev Og := List (String × OgAttrs)

/-- `name in graph.nodes`. -/
def ogContains (g : Og) (n : String) : Bool :=
  match g with
  | [] => false
  | p :: t => p.1 = n || ogContains t n

/-- `graph.nodes[name]`: the attribute bag of a node (the node dictionary
holds one entry per name, so first match is the entry). -/
def ogLookup (g : Og) (n : String) : Option OgAttrs :=
  match g with
  | [] => none
  | p :: t => if p.1 = n then some p.2 else ogLookup t n

/-- networkx `add_node`: a new name is appended; re-adding an existing
name keeps the single node and overwrites its attributes. -/
def og_add_node (g : Og) (n : String) (a : OgAttrs) : Og :=
  if ogContains g n then g.map fun p => if p.1 = n then (n, a) else p
  else g ++ [(n, a)]

/-- Node names of an OG, in insertion order. -/
def ogKeys (g : Og) : List String :=
  g.map (·.1)

/-- The FGDB aggregate, restricted to what the claims touch: the
Management Graph node names, the `function_blocks` registry, and the
Operation Graph node dictionary. -/
structure Fgdb where
  management_graph : List String
  function_blocks : List String
  operation_graph : Og
deriving DecidableEq, Repr

/-- Modelled from the spec: `FunctionalGraph.register_function` of the
`lib` module is not among the sources at hand.  Per the spec it is an
idempotent MG node creation of kind Function: created on first
registration, re-registration is a no-op. -/
def register_function (g : Fgdb) (n : String) : Fgdb :=
  if g.function_blocks.contains n then g
  else { g with management_graph := g.management_graph ++ [n],
                function_blocks := g.function_blocks ++ [n] }

/-- Modelled from the spec: the MG half of
`FunctionalGraph.register_independent_variable` — idempotent MG node
creation of kind Variable. -/
def registerVariableMg (g : Fgdb) (n : String) : Fgdb :=
  if g.management_graph.contains n then g
  else { g with management_graph := g.management_graph ++ [n] }

/-- Modelled from the spec: `FunctionalGraph.register_independent_variable`
of the `lib` module is not among the sources at hand.  Per the spec it is
an idempotent MG node creation with data_type `pure_independent` and
simultaneously an OG seed node creation (same base name, created_at =
null), both conditional on absence. -/
def register_independent_variable (g : Fgdb) (n : String) : Fgdb :=
  if ogContains (registerVariableMg g n).operation_graph n then registerVariableMg g n
  else { (registerVariableMg g n) with
          operation_graph := og_add_node ((registerVariableMg g n).operation_graph) n
            ⟨"data_block", "pure_independent", none⟩ }

/-- `configure.py`, intermediate-variable loop body: if the name is not in
`fgdb.operation_graph.nodes`, `add_node` with `node_type="data_block"`,
`data_type="intermediate"`, `created_at=None`. -/
def register_intermediate (g : Fgdb) (n : String) : Fgdb :=
  if ogContains g.operation_graph n then g
  else { g with operation_graph :=
          og_add_node g.operation_graph n ⟨"data_block", "intermediate", none⟩ }

/-- Python `sorted(...)` over a set of strings. -/
def sortedList (s : Finset String) : List String :=
  s.sort (· ≤ ·)

/-- The mutation phase of `configure.configure_fgdb`: register the
functions, the pure independent variables, and the intermediate variables,
each set iterated in sorted order. -/
def configure_pass (g : Fgdb) (ops : List Operation) : Fgdb :=
  let g1 := (sortedList (classifier_functions ops)).foldl register_function g
  let g2 := (sortedList (pure_independent_vars ops)).foldl register_independent_variable g1
  (sortedList (intermediate_vars ops)).foldl register_intermediate g2

/-- `configure.configure_fgdb` after the FGDB is loaded: parse the
operation file; when no valid operations were found, `sys.exit(1)` (the
`Except.error`) fires before any graph mutation; otherwise run the
registration pass on the loaded state. -/
def configure_fgdb (g : Fgdb) (lines : List String) : Except String Fgdb :=
  let operations := parse_operation_file lines
  if operations = [] then Except.error "No valid operations found in the file."
  else Except.ok (configure_pass g operations)

/-! ## Execution engine batch loop (`operation.py`) -/

/-- Attribute bag of the auto-healed node added for a missing input:
`node_type="data_block"`, `data_type="intermediate"`,
`created_at=datetime.datetime.now()`. -/
def intermediateAttrs (now : Nat) : OgAttrs :=
  ⟨"data_block", "intermediate", some now⟩

/-- `operation.py`: the `missing_vars` list of one operation, collected
against the state before any addition, as the source does. -/
def autoHealMissing (g : Og) (inputs : List String) : List String :=
  inputs.filter fun v => !(ogContains g v)

/-- `operation.py`, missing-input check of one operation: `add_node` each
missing input as an intermediate with `created_at = now`, and emit the
warning prints.  Returns the updated OG and the log lines. -/
def autoHealOg (now : Nat) (g : Og) (inputs : List String) : Og × List String :=
  ((autoHealMissing g inputs).foldl (fun h v => og_add_node h v (intermediateAttrs now)) g,
   if autoHealMissing g inputs = [] then []
   else "Warning: Independent variables not found in OG" ::
        (autoHealMissing g inputs).map fun v => "Added missing variable to OG: " ++ v)

/-- The state of the FGDB after the pre-execution steps of one operation
in `operation.execute_operations`: auto-heal the missing inputs, then
auto-register the function if it is not in `function_blocks`.  These steps
run before the `try` block. -/
def preState (now : Nat) (g : Fgdb) (op : Operation) : Fgdb :=
  let g1 := { g with operation_graph := (autoHealOg now g.operation_graph op.independent_vars).1 }
  if g1.function_blocks.contains op.function_name then g1
  else register_function g1 op.function_name

/-- `FunctionalGraph.execute_operation` lives in the `lib` module, not
among the sources at hand; the batch loop treats it as a call that either
returns the new timestamped variable name after mutating the FGDB, or
raises (`Except.error`). -/
abbrev Executor := Fgdb → Operation → Except String (Fgdb × String)

/-- One iteration of the `operation.execute_operations` loop: run the
pre-execution steps, then `try` the executor; on success record the
returned variable, on an exception print the error and `continue` with the
state the pre-steps (and any partial work the raise discarded) left
behind. -/
def execStep (exec : Executor) (now : Nat) (g : Fgdb) (op : Operation) : Fgdb × List String :=
  let g2 := preState now g op
  match exec g2 op with
  | Except.ok (g3, v) => (g3, [v])
  | Except.error _ => (g2, [])

/-- The batch loop of `operation.execute_operations` over the parsed
operations, threading the FGDB and accumulating `executed_vars`. -/
def execute_loop (exec : Executor) (now : Nat) (g : Fgdb) : List Operation → Fgdb × List String
  | [] => (g, [])
  | op :: rest =>
    let s := execStep exec now g op
    let r := execute_loop exec now s.1 rest
    (r.1, s.2 ++ r.2)

/-- `operation.execute_operations` after the FGDB is loaded: parse the
operation file; when no valid operations were found, `sys.exit(1)` (the
`Except.error`) fires before any graph mutation; otherwise run the batch
loop. -/
def execute_operations (exec : Executor) (now : Nat) (g : Fgdb) (lines : List String) :
    Except String (Fgdb × List String) :=
  let operations := parse_operation_file lines
  if operations = [] then Except.error "No valid operations found in the file."
  else Except.ok (execute_loop exec now g operations)

/-! ## Helper lemmas -/

theorem mem_foldl_insert (f : Operation → String) (ops : List Operation) (s : Finset String)
    (x : String) :
    x ∈ ops.foldl (fun t op => insert (f op) t) s ↔ x ∈ s ∨ ∃ op ∈ ops, f op = x := by
  induction ops generalizing s with
  | nil => simp
  | cons op rest ih =>
    simp only [List.foldl_cons, ih, Finset.mem_insert, List.mem_cons]
    constructor
    · rintro (⟨rfl | hx⟩ | ⟨o, ho, rfl⟩)
      · exact Or.inr ⟨op, Or.inl rfl, rfl⟩
      · exact Or.inl hx
      · exact Or.inr ⟨o, Or.inr ho, rfl⟩
    · rintro (hx | ⟨o, (rfl | ho), rfl⟩)
      · exact Or.inl (Or.inr hx)
      · exact Or.inl (Or.inl rfl)
      · exact Or.inr ⟨o, ho, rfl⟩

theorem mem_foldl_union (ops : List Operation) (s : Finset String) (x : String) :
    x ∈ ops.foldl (fun t op => t ∪ op.independent_vars.toFinset) s ↔
      x ∈ s ∨ ∃ op ∈ ops, x ∈ op.independent_vars := by
  induction ops generalizing s with
  | nil => simp
  | cons op rest ih =>
    simp only [List.foldl_cons, ih, Finset.mem_union, List.mem_toFinset, List.mem_cons]
    constructor
    · rintro (⟨hx | hx⟩ | ⟨o, ho, hm⟩)
      · exact Or.inl hx
      · exact Or.inr ⟨op, Or.inl rfl, hx⟩
      · exact Or.inr ⟨o, Or.inr ho, hm⟩
    · rintro (hx | ⟨o, (rfl | ho), hm⟩)
      · exact Or.inl (Or.inl hx)
      · exact Or.inl (Or.inr hm)
      · exact Or.inr ⟨o, ho, hm⟩

/-! ## Claims about the classifier -/

/-- Claim C1: for every parsed assignment set, the classifier computes
`pure_independent` as the set difference `independent_vars −
dependent_vars` and `intermediate` as the intersection `independent_vars ∩
dependent_vars`, where `dependent_vars` is the set of all output names. -/
theorem classifier_pure_and_intermediate_sets (ops : List Operation) (x : String) :
    (x ∈ dependent_variables ops ↔ ∃ op ∈ ops, op.dependent_var = x) ∧
    (x ∈ pure_independent_vars ops ↔
      x ∈ independent_variables ops ∧ x ∉ dependent_variables ops) ∧
    (x ∈ intermediate_vars ops ↔
      x ∈ independent_variables ops ∧ x ∈ dependent_variables ops) := by
  refine ⟨?_, ?_, ?_⟩
  · simpa [dependent_variables] using
      mem_foldl_insert (fun op => op.dependent_var) ops ∅ x
  · simp [pure_independent_vars, Finset.mem_sdiff]
  · simp [intermediate_vars, Finset.mem_inter]

/-- Claim C2: for every assignment set, `pure_independent ∩ dependent_vars
= ∅` and `pure_independent ∪ intermediate = independent_vars`. -/
theorem classifier_partition (ops : List Operation) :
    pure_independent_vars ops ∩ dependent_variables ops = ∅ ∧
    pure_independent_vars ops ∪ intermediate_vars ops = independent_variables ops := by
  constructor
  · ext x
    simp only [pure_independent_vars, Finset.mem_inter, Finset.mem_sdiff,
      Finset.not_mem_empty, iff_false]
    tauto
  · ext x
    simp only [pure_independent_vars, intermediate_vars, Finset.mem_union,
      Finset.mem_sdiff, Finset.mem_inter]
    tauto

/-- Claim C5: for every parsed assignment set, the classifier's
`independent_vars` is the set union of all input names across all triples,
multiplicities dropped: a name belongs to it exactly when it occurs among
some triple's inputs, and as a `Finset` it holds one element per name. -/
theorem independent_vars_is_union_of_inputs (ops : List Operation) (x : String) :
    x ∈ independent_variables ops ↔ ∃ op ∈ ops, x ∈ op.independent_vars := by
  simpa [independent_variables] using mem_foldl_union ops ∅ x

/-! ## Claims about the fatal empty-input precondition -/

/-- Claim C8: for every run of configure or execute, if the parser yields
zero valid triples the run fails with the fatal `sys.exit(1)` error (the
`Except.error`) and no mutated FGDB is produced — the emptiness check
precedes every graph mutation. -/
theorem empty_parse_is_fatal (exec : Executor) (now : Nat) (g : Fgdb) (lines : List String)
    (h : parse_operation_file lines = []) :
    configure_fgdb g lines = Except.error "No valid operations found in the file." ∧
    execute_operations exec now g lines =
      Except.error "No valid operations found in the file." := by
  constructor
  · simp [configure_fgdb, h]
  · simp [execute_operations, h]

/-- Witness for C8 at a file holding only a comment and a malformed line. -/
theorem empty_parse_is_fatal_witness :
    parse_operation_file ["# seed", "this is not an assignment"] = [] ∧
    configure_fgdb ⟨[], [], []⟩ ["# seed", "this is not an assignment"] =
      Except.error "No valid operations found in the file." ∧
    execute_operations (fun g op => Except.ok (g, op.dependent_var)) 0 ⟨[], [], []⟩
        ["# seed", "this is not an assignment"] =
      Except.error "No valid operations found in the file." :=
  ⟨by decide,
   (empty_parse_is_fatal (fun g op => Except.ok (g, op.dependent_var)) 0 ⟨[], [], []⟩
      ["# seed", "this is not an assignment"] (by decide)).1,
   (empty_parse_is_fatal (fun g op => Except.ok (g, op.dependent_var)) 0 ⟨[], [], []⟩
      ["# seed", "this is not an assignment"] (by decide)).2⟩

/-! ## Claims about `analyze_functions` and unopenable files -/

/-- Counterexample to claim C10 as stated: an open failure that is not
`FileNotFoundError` — for example `PermissionError`, a sibling `OSError`
subclass — is not caught by the `except FileNotFoundError` clause, so
`analyze_functions` raises (`Except.error`) instead of printing a message
and returning the empty list. -/
theorem open_error_propagates :
    analyze_functions "operation.txt"
        (OpenResult.otherError "PermissionError: [Errno 13] Permission denied: 'operation.txt'") =
      Except.error "PermissionError: [Errno 13] Permission denied: 'operation.txt'" := rfl

/-- Claim C10 (amended): for every file path whose open fails with
`FileNotFoundError`, `analyze_functions` does not raise — it prints an
error message and returns the empty list, the value the caller treats as
zero valid triples; open failures of any other kind propagate uncaught. -/
theorem file_not_found_returns_empty (p : String) (m : String) :
    analyze_functions p OpenResult.fileNotFound =
      Except.ok ([], ["エラー: " ++ p ++ " というファイルが見つかりません。"]) ∧
    analyze_functions p (OpenResult.otherError m) = Except.error m :=
  ⟨rfl, rfl⟩


/-! ## Operation-graph store lemmas -/

theorem ogContains_iff_mem_keys (g : Og) (n : String) :
    ogContains g n = true ↔ n ∈ ogKeys g := by
  induction g with
  | nil => simp [ogContains, ogKeys]
  | cons p t ih =>
    simp only [ogContains, ogKeys, List.map_cons, List.mem_cons, Bool.or_eq_true,
      decide_eq_true_eq, ih]
    constructor
    · rintro (h | h)
      · exact Or.inl h.symm
      · exact Or.inr h
    · rintro (h | h)
      · exact Or.inl h.symm
      · exact Or.inr h

theorem ogKeys_map_replace (g : Og) (n : String) (a : OgAttrs) :
    ogKeys (g.map fun p => if p.1 = n then (n, a) else p) = ogKeys g := by
  induction g with
  | nil => rfl
  | cons p t ih =>
    have h1 : (if p.1 = n then (n, a) else p).1 = p.1 := by
      by_cases hp : p.1 = n
      · simp [hp]
      · simp [hp]
    simp only [ogKeys, List.map_cons] at ih ⊢
    rw [h1, ih]

theorem ogKeys_add_node (g : Og) (n : String) (a : OgAttrs) :
    ogKeys (og_add_node g n a) =
      if ogContains g n = true then ogKeys g else ogKeys g ++ [n] := by
  unfold og_add_node
  split
  · next h => simp [h, ogKeys_map_replace]
  · next h =>
    have h2 : ogContains g n = false := by simpa using h
    simp [h2, ogKeys]

theorem ogLookup_map_replace_self (g : Og) (n : String) (a : OgAttrs)
    (h : ogContains g n = true) :
    ogLookup (g.map fun p => if p.1 = n then (n, a) else p) n = some a := by
  induction g with
  | nil => simp [ogContains] at h
  | cons p t ih =>
    by_cases hp : p.1 = n
    · simp [ogLookup, hp]
    · have ht : ogContains t n = true := by
        simpa [ogContains, hp] using h
      simp [ogLookup, hp, ih ht]

theorem ogLookup_append_self (g : Og) (n : String) (a : OgAttrs)
    (h : ogContains g n = false) :
    ogLookup (g ++ [(n, a)]) n = some a := by
  induction g with
  | nil => simp [ogLookup]
  | cons p t ih =>
    have hp : ¬ p.1 = n := by
      intro hc
      simp [ogContains, hc] at h
    have ht : ogContains t n = false := by
      simpa [ogContains, hp] using h
    simp [ogLookup, hp, ih ht]

theorem ogLookup_add_node_self (g : Og) (n : String) (a : OgAttrs) :
    ogLookup (og_add_node g n a) n = some a := by
  unfold og_add_node
  split
  · next h => exact ogLookup_map_replace_self g n a h
  · next h => exact ogLookup_append_self g n a (by simpa using h)

theorem ogLookup_map_replace_other (g : Og) (n m : String) (a : OgAttrs) (h : m ≠ n) :
    ogLookup (g.map fun p => if p.1 = n then (n, a) else p) m = ogLookup g m := by
  induction g with
  | nil => rfl
  | cons p t ih =>
    by_cases hp : p.1 = n
    · have h1 : ¬ n = m := fun hc => h hc.symm
      have h2 : ¬ p.1 = m := by rw [hp]; exact h1
      simp [ogLookup, hp, h1, h2, ih]
    · by_cases hm : p.1 = m
      · simp [ogLookup, hp, hm, h]
      · simp [ogLookup, hp, hm, ih]

theorem ogLookup_append_other (g : Og) (n m : String) (a : OgAttrs) (h : m ≠ n) :
    ogLookup (g ++ [(n, a)]) m = ogLookup g m := by
  induction g with
  | nil =>
    have h1 : ¬ n = m := fun hc => h hc.symm
    simp [ogLookup, h1]
  | cons p t ih =>
    by_cases hm : p.1 = m
    · simp [ogLookup, hm]
    · simp [ogLookup, hm, ih]

theorem ogLookup_add_node_other (g : Og) (n m : String) (a : OgAttrs) (h : m ≠ n) :
    ogLookup (og_add_node g n a) m = ogLookup g m := by
  unfold og_add_node
  split
  · exact ogLookup_map_replace_other g n m a h
  · exact ogLookup_append_other g n m a h

theorem ogContains_eq_false_iff (g : Og) (n : String) :
    ogContains g n = false ↔ n ∉ ogKeys g := by
  constructor
  · intro h1 h2
    rw [(ogContains_iff_mem_keys g n).mpr h2] at h1
    cases h1
  · intro h1
    cases hb : ogContains g n
    · rfl
    · exact absurd ((ogContains_iff_mem_keys g n).mp hb) h1

theorem mem_keys_add_node (g : Og) (n : String) (a : OgAttrs) (m : String) :
    m ∈ ogKeys (og_add_node g n a) ↔ m ∈ ogKeys g ∨ m = n := by
  rw [ogKeys_add_node]
  split
  · next h =>
    have hn : n ∈ ogKeys g := (ogContains_iff_mem_keys g n).mp h
    constructor
    · exact Or.inl
    · rintro (hm | rfl)
      · exact hm
      · exact hn
  · simp [List.mem_append]

theorem fold_add_lookup_self (a : OgAttrs) (name : String) :
    ∀ (vs : List String) (g : Og),
      ogLookup g name = some a ∨ name ∈ vs →
      ogLookup (vs.foldl (fun h v => og_add_node h v a) g) name = some a := by
  intro vs
  induction vs with
  | nil =>
    intro g h
    rcases h with h | h
    · exact h
    · cases h
  | cons v rest ih =>
    intro g h
    simp only [List.foldl_cons]
    apply ih
    by_cases hv : v = name
    · left
      rw [hv]
      exact ogLookup_add_node_self g name a
    · rcases h with h | h
      · left
        rw [ogLookup_add_node_other g v name a fun hc => hv hc.symm]
        exact h
      · right
        rcases List.mem_cons.mp h with h1 | h1
        · exact absurd h1.symm hv
        · exact h1

theorem fold_add_count_preserved (a : OgAttrs) (name : String) :
    ∀ (vs : List String) (g : Og), name ∈ ogKeys g →
      (ogKeys (vs.foldl (fun h v => og_add_node h v a) g)).count name =
        (ogKeys g).count name := by
  intro vs
  induction vs with
  | nil => intro g _; rfl
  | cons v rest ih =>
    intro g hm
    simp only [List.foldl_cons]
    have hmem : name ∈ ogKeys (og_add_node g v a) :=
      (mem_keys_add_node g v a name).mpr (Or.inl hm)
    rw [ih _ hmem, ogKeys_add_node]
    split
    · rfl
    · next h =>
      have hvk : v ∉ ogKeys g := fun hc => h ((ogContains_iff_mem_keys g v).mpr hc)
      have hne : ¬ (name = v) := fun hc => hvk (hc ▸ hm)
      simp [List.count_append, List.count_cons, List.count_nil, hne]

theorem fold_add_count_one (a : OgAttrs) (name : String) :
    ∀ (vs : List String) (g : Og), name ∈ vs → ogContains g name = false →
      (ogKeys (vs.foldl (fun h v => og_add_node h v a) g)).count name = 1 := by
  intro vs
  induction vs with
  | nil => intro g h _; cases h
  | cons v rest ih =>
    intro g hmem hc
    have hnk : name ∉ ogKeys g := (ogContains_eq_false_iff g name).mp hc
    simp only [List.foldl_cons]
    by_cases hv : v = name
    · subst hv
      have hkeys : ogKeys (og_add_node g v a) = ogKeys g ++ [v] := by
        rw [ogKeys_add_node, if_neg]
        rw [hc]
        simp
      have hmem2 : v ∈ ogKeys (og_add_node g v a) := by
        rw [hkeys]
        simp
      rw [fold_add_count_preserved a v rest _ hmem2, hkeys]
      simp [List.count_append, List.count_cons, List.count_nil,
        List.count_eq_zero.mpr hnk]
    · have hmem' : name ∈ rest := by
        rcases List.mem_cons.mp hmem with h1 | h1
        · exact absurd h1.symm hv
        · exact h1
      have hc' : ogContains (og_add_node g v a) name = false := by
        rw [ogContains_eq_false_iff]
        intro hmm
        rcases (mem_keys_add_node g v a name).mp hmm with h1 | h1
        · exact hnk h1
        · exact hv h1.symm
      exact ih _ hmem' hc'

theorem preState_og (now : Nat) (g : Fgdb) (op : Operation) :
    (preState now g op).operation_graph =
      (autoHealOg now g.operation_graph op.independent_vars).1 := by
  unfold preState register_function
  dsimp only
  split
  · rfl
  · rfl

/-! ## Claim about auto-healing missing inputs -/

/-- Claim C4: for every executed assignment and every input name that has
no OG node at execution time, the engine creates exactly one new OG node
for that input with `data_type = "intermediate"` and `created_at = now`,
logs a warning, and the batch is not aborted (the pre-execution step is a
total function whose result the loop always continues from). -/
theorem auto_heal_creates_one_intermediate (now : Nat) (g : Fgdb) (op : Operation)
    (name : String) (h1 : name ∈ op.independent_vars)
    (h2 : ogContains g.operation_graph name = false) :
    ogLookup (preState now g op).operation_graph name = some (intermediateAttrs now) ∧
    (ogKeys (preState now g op).operation_graph).count name = 1 ∧
    (autoHealOg now g.operation_graph op.independent_vars).2 ≠ [] := by
  have hmiss : name ∈ autoHealMissing g.operation_graph op.independent_vars := by
    rw [autoHealMissing, List.mem_filter]
    refine ⟨h1, ?_⟩
    rw [h2]
    rfl
  have hne : autoHealMissing g.operation_graph op.independent_vars ≠ [] :=
    List.ne_nil_of_mem hmiss
  refine ⟨?_, ?_, ?_⟩
  · rw [preState_og]
    exact fold_add_lookup_self _ name _ _ (Or.inr hmiss)
  · rw [preState_og]
    exact fold_add_count_one _ name _ _ hmiss h2
  · unfold autoHealOg
    simp only [if_neg hne]
    intro hcontra
    cases hcontra

/-- Concrete states shared by the witnesses below. -/
def sampleOg : Og := [("x", ⟨"data_block", "pure_independent", none⟩)]

def sampleFgdb : Fgdb := ⟨["x", "add"], ["add"], sampleOg⟩

/-- Witness for C4: input `q` of `z = add(x, q)` is absent from the OG. -/
theorem auto_heal_witness :
    ("q" ∈ ["x", "q"] ∧ ogContains sampleFgdb.operation_graph "q" = false) ∧
    (ogLookup (preState 5 sampleFgdb ⟨"z", "add", ["x", "q"]⟩).operation_graph "q" =
        some (intermediateAttrs 5) ∧
      (ogKeys (preState 5 sampleFgdb ⟨"z", "add", ["x", "q"]⟩).operation_graph).count "q" = 1 ∧
      (autoHealOg 5 sampleFgdb.operation_graph ["x", "q"]).2 ≠ []) :=
  ⟨⟨by decide, by decide⟩,
   auto_heal_creates_one_intermediate 5 sampleFgdb ⟨"z", "add", ["x", "q"]⟩ "q"
     (by decide) (by decide)⟩

/-! ## Claim about batch failure semantics -/

theorem execute_loop_append (exec : Executor) (now : Nat) :
    ∀ (l1 : List Operation) (g : Fgdb) (l2 : List Operation),
      execute_loop exec now g (l1 ++ l2) =
        ((execute_loop exec now (execute_loop exec now g l1).1 l2).1,
         (execute_loop exec now g l1).2 ++
           (execute_loop exec now (execute_loop exec now g l1).1 l2).2) := by
  intro l1
  induction l1 with
  | nil =>
    intro g l2
    simp [execute_loop]
  | cons op rest ih =>
    intro g l2
    simp only [List.cons_append, execute_loop, List.append_eq]
    rw [ih]
    simp [List.append_assoc]

/-- Claim C3: for every batch, when the execution of one assignment raises
(`Except.error`), that step is caught and skipped — it contributes no
executed variable — the engine continues with every remaining assignment,
and nothing is rolled back: the loop's state after the failure is the
failing step's pre-execution state (which still includes all prior
successful mutations and even the failing step's own auto-heal work), and
the executed-variable list of the prior successes is kept. -/
theorem batch_continues_after_failure (exec : Executor) (now : Nat) (g : Fgdb)
    (ops1 : List Operation) (bad : Operation) (ops2 : List Operation) (e : String)
    (h : exec (preState now (execute_loop exec now g ops1).1 bad) bad = Except.error e) :
    execute_loop exec now g (ops1 ++ bad :: ops2) =
      ((execute_loop exec now (preState now (execute_loop exec now g ops1).1 bad) ops2).1,
       (execute_loop exec now g ops1).2 ++
         (execute_loop exec now (preState now (execute_loop exec now g ops1).1 bad) ops2).2) := by
  rw [execute_loop_append]
  have hstep : execStep exec now (execute_loop exec now g ops1).1 bad =
      (preState now (execute_loop exec now g ops1).1 bad, []) := by
    unfold execStep
    dsimp only
    rw [h]
  simp only [execute_loop, hstep]
  simp

/-- Executor used by witnesses: fails on functions named `boom`. -/
def execSample : Executor := fun g op =>
  if op.function_name = "boom" then Except.error "fail"
  else Except.ok (g, op.dependent_var ++ "@t")

/-- Witness for C3: a three-assignment batch whose middle step raises. -/
theorem batch_continues_after_failure_witness :
    execSample
        (preState 7 (execute_loop execSample 7 sampleFgdb [⟨"z", "add", ["x"]⟩]).1
          ⟨"w", "boom", ["z"]⟩)
        ⟨"w", "boom", ["z"]⟩ = Except.error "fail" ∧
    execute_loop execSample 7 sampleFgdb
        ([⟨"z", "add", ["x"]⟩] ++ ⟨"w", "boom", ["z"]⟩ :: [⟨"v", "add", ["z"]⟩]) =
      ((execute_loop execSample 7
          (preState 7 (execute_loop execSample 7 sampleFgdb [⟨"z", "add", ["x"]⟩]).1
            ⟨"w", "boom", ["z"]⟩)
          [⟨"v", "add", ["z"]⟩]).1,
       (execute_loop execSample 7 sampleFgdb [⟨"z", "add", ["x"]⟩]).2 ++
         (execute_loop execSample 7
            (preState 7 (execute_loop execSample 7 sampleFgdb [⟨"z", "add", ["x"]⟩]).1
              ⟨"w", "boom", ["z"]⟩)
            [⟨"v", "add", ["z"]⟩]).2) :=
  ⟨rfl,
   batch_continues_after_failure execSample 7 sampleFgdb [⟨"z", "add", ["x"]⟩]
     ⟨"w", "boom", ["z"]⟩ [⟨"v", "add", ["z"]⟩] "fail" rfl⟩

/-! ## Claim about registration idempotence -/

theorem registerVariableMg_og (g : Fgdb) (n : String) :
    (registerVariableMg g n).operation_graph = g.operation_graph := by
  unfold registerVariableMg
  split <;> rfl

theorem register_function_og (g : Fgdb) (n : String) :
    (register_function g n).operation_graph = g.operation_graph := by
  unfold register_function
  split <;> rfl

theorem riv_og_of_contains (g : Fgdb) (n : String)
    (h : ogContains g.operation_graph n = true) :
    (register_independent_variable g n).operation_graph = g.operation_graph := by
  unfold register_independent_variable
  rw [registerVariableMg_og, if_pos h]
  exact registerVariableMg_og g n

theorem riv_contains_self (g : Fgdb) (n : String) :
    ogContains (register_independent_variable g n).operation_graph n = true := by
  unfold register_independent_variable
  rw [registerVariableMg_og]
  split
  · next h => rw [registerVariableMg_og]; exact h
  · show ogContains (og_add_node g.operation_graph n ⟨"data_block", "pure_independent", none⟩) n = true
    rw [ogContains_iff_mem_keys]
    exact (mem_keys_add_node _ _ _ _).mpr (Or.inr rfl)

theorem riv_contains_mono (g : Fgdb) (n m : String)
    (h : ogContains g.operation_graph m = true) :
    ogContains (register_independent_variable g n).operation_graph m = true := by
  unfold register_independent_variable
  rw [registerVariableMg_og]
  split
  · rw [registerVariableMg_og]; exact h
  · show ogContains (og_add_node g.operation_graph n ⟨"data_block", "pure_independent", none⟩) m = true
    rw [ogContains_iff_mem_keys]
    exact (mem_keys_add_node _ _ _ _).mpr (Or.inl ((ogContains_iff_mem_keys _ _).mp h))

theorem rint_of_contains (g : Fgdb) (n : String)
    (h : ogContains g.operation_graph n = true) :
    register_intermediate g n = g := by
  unfold register_intermediate
  rw [if_pos h]

theorem rint_contains_self (g : Fgdb) (n : String) :
    ogContains (register_intermediate g n).operation_graph n = true := by
  unfold register_intermediate
  split
  · next h => exact h
  · show ogContains (og_add_node g.operation_graph n ⟨"data_block", "intermediate", none⟩) n = true
    rw [ogContains_iff_mem_keys]
    exact (mem_keys_add_node _ _ _ _).mpr (Or.inr rfl)

theorem rint_contains_mono (g : Fgdb) (n m : String)
    (h : ogContains g.operation_graph m = true) :
    ogContains (register_intermediate g n).operation_graph m = true := by
  unfold register_intermediate
  split
  · exact h
  · show ogContains (og_add_node g.operation_graph n ⟨"data_block", "intermediate", none⟩) m = true
    rw [ogContains_iff_mem_keys]
    exact (mem_keys_add_node _ _ _ _).mpr (Or.inl ((ogContains_iff_mem_keys _ _).mp h))

theorem fold_rf_og (vs : List String) :
    ∀ g : Fgdb, ((vs.foldl register_function g).operation_graph) = g.operation_graph := by
  induction vs with
  | nil => intro g; rfl
  | cons v rest ih =>
    intro g
    simp only [List.foldl_cons]
    rw [ih, register_function_og]

theorem fold_riv_contains_mono (vs : List String) :
    ∀ (g : Fgdb) (m : String), ogContains g.operation_graph m = true →
      ogContains ((vs.foldl register_independent_variable g).operation_graph) m = true := by
  induction vs with
  | nil => intro g m h; exact h
  | cons v rest ih =>
    intro g m h
    simp only [List.foldl_cons]
    exact ih _ m (riv_contains_mono g v m h)

theorem fold_riv_contains_self (vs : List String) :
    ∀ (g : Fgdb) (v : String), v ∈ vs →
      ogContains ((vs.foldl register_independent_variable g).operation_graph) v = true := by
  induction vs with
  | nil => intro g v h; cases h
  | cons w rest ih =>
    intro g v h
    simp only [List.foldl_cons]
    rcases List.mem_cons.mp h with h1 | h1
    · subst h1
      exact fold_riv_contains_mono rest _ v (riv_contains_self g v)
    · exact ih _ v h1

theorem fold_riv_og_id (vs : List String) :
    ∀ g : Fgdb, (∀ v ∈ vs, ogContains g.operation_graph v = true) →
      ((vs.foldl register_independent_variable g).operation_graph) = g.operation_graph := by
  induction vs with
  | nil => intro g _; rfl
  | cons w rest ih =>
    intro g h
    simp only [List.foldl_cons]
    have hw : (register_independent_variable g w).operation_graph = g.operation_graph :=
      riv_og_of_contains g w (h w (List.mem_cons_self w rest))
    rw [ih _ fun v hv => by rw [hw]; exact h v (List.mem_cons_of_mem w hv), hw]

theorem fold_rint_contains_mono (vs : List String) :
    ∀ (g : Fgdb) (m : String), ogContains g.operation_graph m = true →
      ogContains ((vs.foldl register_intermediate g).operation_graph) m = true := by
  induction vs with
  | nil => intro g m h; exact h
  | cons v rest ih =>
    intro g m h
    simp only [List.foldl_cons]
    exact ih _ m (rint_contains_mono g v m h)

theorem fold_rint_contains_self (vs : List String) :
    ∀ (g : Fgdb) (v : String), v ∈ vs →
      ogContains ((vs.foldl register_intermediate g).operation_graph) v = true := by
  induction vs with
  | nil => intro g v h; cases h
  | cons w rest ih =>
    intro g v h
    simp only [List.foldl_cons]
    rcases List.mem_cons.mp h with h1 | h1
    · subst h1
      exact fold_rint_contains_mono rest _ v (rint_contains_self g v)
    · exact ih _ v h1

theorem fold_rint_id (vs : List String) :
    ∀ g : Fgdb, (∀ v ∈ vs, ogContains g.operation_graph v = true) →
      vs.foldl register_intermediate g = g := by
  induction vs with
  | nil => intro g _; rfl
  | cons w rest ih =>
    intro g h
    simp only [List.foldl_cons]
    have hw : register_intermediate g w = g :=
      rint_of_contains g w (h w (List.mem_cons_self w rest))
    rw [hw]
    exact ih _ fun v hv => h v (List.mem_cons_of_mem w hv)

theorem configure_pass_eq (g : Fgdb) (ops : List Operation) :
    configure_pass g ops =
      (sortedList (intermediate_vars ops)).foldl register_intermediate
        ((sortedList (pure_independent_vars ops)).foldl register_independent_variable
          ((sortedList (classifier_functions ops)).foldl register_function g)) := rfl

/-- Claim C7: registering an intermediate placeholder is conditional and
idempotent — a name already present in the OG is left entirely unchanged;
an absent name gets exactly one OG node with `data_type = "intermediate"`
and `created_at = null`; and a second configuration pass over the same
assignment set leaves the OG node set unchanged. -/
theorem intermediate_registration_idempotent (g : Fgdb) (n : String) (ops : List Operation) :
    (ogContains g.operation_graph n = true → register_intermediate g n = g) ∧
    (ogContains g.operation_graph n = false →
      ogLookup (register_intermediate g n).operation_graph n =
        some ⟨"data_block", "intermediate", none⟩ ∧
      (ogKeys (register_intermediate g n).operation_graph).count n = 1) ∧
    (configure_pass (configure_pass g ops) ops).operation_graph =
      (configure_pass g ops).operation_graph := by
  refine ⟨fun h => rint_of_contains g n h, fun h => ?_, ?_⟩
  · have hcond : ¬ (ogContains g.operation_graph n = true) := by
      rw [h]
      exact Bool.false_ne_true
    have hog : (register_intermediate g n).operation_graph =
        og_add_node g.operation_graph n ⟨"data_block", "intermediate", none⟩ := by
      unfold register_intermediate
      rw [if_neg hcond]
    constructor
    · rw [hog]
      exact ogLookup_add_node_self _ _ _
    · rw [hog, ogKeys_add_node, if_neg hcond]
      have hnk : n ∉ ogKeys g.operation_graph := (ogContains_eq_false_iff _ n).mp h
      simp [List.count_append, List.count_cons, List.count_nil,
        List.count_eq_zero.mpr hnk]
  · have hpure : ∀ v ∈ sortedList (pure_independent_vars ops),
        ogContains (configure_pass g ops).operation_graph v = true := by
      intro v hv
      rw [configure_pass_eq]
      exact fold_rint_contains_mono _ _ v (fold_riv_contains_self _ _ v hv)
    have hinter : ∀ v ∈ sortedList (intermediate_vars ops),
        ogContains (configure_pass g ops).operation_graph v = true := by
      intro v hv
      rw [configure_pass_eq]
      exact fold_rint_contains_self _ _ v hv
    rw [configure_pass_eq (configure_pass g ops) ops]
    have hA : (((sortedList (classifier_functions ops)).foldl register_function
        (configure_pass g ops)).operation_graph) = (configure_pass g ops).operation_graph :=
      fold_rf_og _ _
    have hB : (((sortedList (pure_independent_vars ops)).foldl register_independent_variable
        ((sortedList (classifier_functions ops)).foldl register_function
          (configure_pass g ops))).operation_graph) =
        (configure_pass g ops).operation_graph := by
      rw [fold_riv_og_id _ _ fun v hv => by rw [hA]; exact hpure v hv, hA]
    rw [fold_rint_id _ _ fun v hv => by rw [hB]; exact hinter v hv, hB]

/-- Witness for C7: a present name is untouched, an absent name gets one
intermediate node, and a double configuration pass equals a single one on
the OG. -/
theorem intermediate_registration_idempotent_witness :
    (ogContains sampleFgdb.operation_graph "x" = true ∧
      register_intermediate sampleFgdb "x" = sampleFgdb) ∧
    (ogContains sampleFgdb.operation_graph "z" = false ∧
      (ogLookup (register_intermediate sampleFgdb "z").operation_graph "z" =
          some ⟨"data_block", "intermediate", none⟩ ∧
        (ogKeys (register_intermediate sampleFgdb "z").operation_graph).count "z" = 1)) ∧
    (configure_pass (configure_pass ⟨[], [], []⟩ [⟨"z", "add", ["x", "y"]⟩])
        [⟨"z", "add", ["x", "y"]⟩]).operation_graph =
      (configure_pass ⟨[], [], []⟩ [⟨"z", "add", ["x", "y"]⟩]).operation_graph :=
  ⟨⟨by decide,
    (intermediate_registration_idempotent sampleFgdb "x" []).1 (by decide)⟩,
   ⟨by decide,
    (intermediate_registration_idempotent sampleFgdb "z" []).2.1 (by decide)⟩,
   (intermediate_registration_idempotent ⟨[], [], []⟩ "x" [⟨"z", "add", ["x", "y"]⟩]).2.2⟩

/-! ## Claims about the line loop and the prefix-anchored pattern -/

theorem analyze_lines_append :
    ∀ l1 l2 : List String,
      analyze_lines (l1 ++ l2) =
        ((analyze_lines l1).1 ++ (analyze_lines l2).1,
         (analyze_lines l1).2 ++ (analyze_lines l2).2) := by
  intro l1
  induction l1 with
  | nil => intro l2; simp [analyze_lines]
  | cons line rest ih =>
    intro l2
    simp only [List.cons_append, analyze_lines]
    by_cases h1 : pyStrip line.data = []
    · simp [h1, ih]
    · by_cases h2 : (pyStrip line.data).head? = some '#'
      · simp [h1, h2, ih]
      · cases h3 : matchLineChars (pyStrip line.data) with
        | some t => simp [h1, h2, h3, ih]
        | none => simp [h1, h2, h3, ih]

/-- Claim C6: the line loop skips blank lines and lines whose stripped
form begins with `#`; any other non-matching line is discarded alone,
with a diagnostic emitted, and parsing continues; the accepted entries
keep file order (parsing distributes over concatenation). -/
theorem parser_skips_and_recovers (line : String) (rest l1 l2 : List String) :
    (pyStrip line.toList = [] → analyze_lines (line :: rest) = analyze_lines rest) ∧
    ((pyStrip line.toList).head? = some '#' →
      analyze_lines (line :: rest) = analyze_lines rest) ∧
    (pyStrip line.toList ≠ [] → (pyStrip line.toList).head? ≠ some '#' →
      matchLineChars (pyStrip line.toList) = none →
      analyze_lines (line :: rest) =
        ((analyze_lines rest).1,
         ("警告: 行 '" ++ (pyStrip line.toList).asString ++ "' は解析できませんでした。") ::
           (analyze_lines rest).2)) ∧
    (analyze_lines (l1 ++ l2)).1 = (analyze_lines l1).1 ++ (analyze_lines l2).1 := by
  refine ⟨?_, ?_, ?_, ?_⟩
  · intro h
    have h0 : pyStrip line.data = [] := h
    simp [analyze_lines, h0]
  · intro h
    have h0 : (pyStrip line.data).head? = some '#' := h
    have h1 : pyStrip line.data ≠ [] := by
      intro hc
      rw [hc] at h0
      simp at h0
    simp [analyze_lines, h1, h0]
  · intro h1 h2 h3
    have h1' : pyStrip line.data ≠ [] := h1
    have h2' : (pyStrip line.data).head? ≠ some '#' := h2
    have h3' : matchLineChars (pyStrip line.data) = none := h3
    simp [analyze_lines, h1', h2', h3']
  · rw [analyze_lines_append]

/-- Witness for C6: a blank line, a comment line, a malformed line, and
order preservation over a concatenation, each on concrete input. -/
theorem parser_skips_and_recovers_witness :
    analyze_lines ("   " :: ["z = add(x)"]) = analyze_lines ["z = add(x)"] ∧
    analyze_lines ("# note" :: ["z = add(x)"]) = analyze_lines ["z = add(x)"] ∧
    analyze_lines ("garbage!" :: ["z = add(x)"]) =
      ((analyze_lines ["z = add(x)"]).1,
       ("警告: 行 '" ++ (pyStrip "garbage!".toList).asString ++ "' は解析できませんでした。") ::
         (analyze_lines ["z = add(x)"]).2) ∧
    (analyze_lines (["a = f(b)"] ++ ["c = g(d)"])).1 =
      (analyze_lines ["a = f(b)"]).1 ++ (analyze_lines ["c = g(d)"]).1 :=
  ⟨(parser_skips_and_recovers "   " ["z = add(x)"] [] []).1 (by decide),
   (parser_skips_and_recovers "# note" ["z = add(x)"] [] []).2.1 (by decide),
   (parser_skips_and_recovers "garbage!" ["z = add(x)"] [] []).2.2.1
     (by decide) (by decide) (by decide),
   (parser_skips_and_recovers "x" [] ["a = f(b)"] ["c = g(d)"]).2.2.2⟩

theorem dropWhile_append_ne_nil (p : Char → Bool) :
    ∀ cs j : List Char, cs.dropWhile p ≠ [] →
      (cs ++ j).dropWhile p = cs.dropWhile p ++ j := by
  intro cs
  induction cs with
  | nil => intro j h; exact absurd rfl h
  | cons c t ih =>
    intro j h
    cases hc : p c with
    | true =>
      simp only [List.dropWhile_cons, hc, if_true] at h ⊢
      simp only [List.cons_append, List.dropWhile_cons, hc, if_true]
      exact ih j h
    | false =>
      simp [List.dropWhile_cons, hc]

theorem takeWhile_append_ne_nil (p : Char → Bool) :
    ∀ cs j : List Char, cs.dropWhile p ≠ [] →
      (cs ++ j).takeWhile p = cs.takeWhile p := by
  intro cs
  induction cs with
  | nil => intro j h; exact absurd rfl h
  | cons c t ih =>
    intro j h
    cases hc : p c with
    | true =>
      simp only [List.dropWhile_cons, hc, if_true] at h
      simp only [List.cons_append, List.takeWhile_cons, hc, if_true]
      rw [ih j h]
    | false =>
      simp [List.takeWhile_cons, hc]

theorem takeRun_append (p : Char → Bool) (cs j t r : List Char)
    (h : takeRun p cs = some (t, r)) (hr : r ≠ []) :
    takeRun p (cs ++ j) = some (t, r ++ j) := by
  unfold takeRun at h ⊢
  by_cases h0 : cs.takeWhile p = []
  · rw [if_pos h0] at h
    cases h
  · rw [if_neg h0] at h
    have ht : cs.takeWhile p = t := congrArg Prod.fst (Option.some.inj h)
    have hd : cs.dropWhile p = r := congrArg Prod.snd (Option.some.inj h)
    have hdne : cs.dropWhile p ≠ [] := by rw [hd]; exact hr
    rw [takeWhile_append_ne_nil p cs j hdne, dropWhile_append_ne_nil p cs j hdne,
      if_neg h0, ht, hd]

theorem expectChar_append (c : Char) (cs j r : List Char)
    (h : expectChar c cs = some r) :
    expectChar c (cs ++ j) = some (r ++ j) := by
  cases cs with
  | nil => simp [expectChar] at h
  | cons d tl =>
    by_cases hd : d = c
    · simp only [expectChar, hd, if_pos rfl] at h ⊢
      rw [Option.some.inj h]
      simp [List.cons_append, expectChar]
    · simp [expectChar, hd] at h

theorem skipSpaces_append (cs j : List Char) (h : skipSpaces cs ≠ []) :
    skipSpaces (cs ++ j) = skipSpaces cs ++ j :=
  dropWhile_append_ne_nil isSpaceChar cs j h

theorem expectChar_src_ne_nil (c : Char) (cs r : List Char)
    (h : expectChar c cs = some r) : cs ≠ [] := by
  intro hc
  subst hc
  simp [expectChar] at h

theorem takeRun_src_ne_nil (p : Char → Bool) (cs : List Char)
    (pr : List Char × List Char) (h : takeRun p cs = some pr) : cs ≠ [] := by
  intro hc
  subst hc
  simp [takeRun] at h

theorem skipSpaces_arg_ne_nil (cs : List Char) (h : skipSpaces cs ≠ []) : cs ≠ [] := by
  intro hc
  apply h
  rw [hc]
  rfl

theorem matchAssign_append (cs j : List Char) (t : List Char × List Char × List Char)
    (rest : List Char) (h : matchAssign cs = some (t, rest)) :
    matchAssign (cs ++ j) = some (t, rest ++ j) := by
  unfold matchAssign at h ⊢
  cases h1 : takeRun isIdentChar cs with
  | none => simp [h1] at h
  | some pr1 =>
    obtain ⟨g1, r1⟩ := pr1
    simp only [h1] at h
    cases h2 : expectChar '=' (skipSpaces r1) with
    | none => simp [h2] at h
    | some r2 =>
      simp only [h2] at h
      cases h3 : takeRun isIdentChar (skipSpaces r2) with
      | none => simp [h3] at h
      | some pr2 =>
        obtain ⟨g2, r3⟩ := pr2
        simp only [h3] at h
        cases h4 : expectChar '(' (skipSpaces r3) with
        | none => simp [h4] at h
        | some r4 =>
          simp only [h4] at h
          cases h5 : takeRun isClassChar r4 with
          | none => simp [h5] at h
          | some pr3 =>
            obtain ⟨g3, r5⟩ := pr3
            simp only [h5] at h
            cases h6 : expectChar ')' r5 with
            | none => simp [h6] at h
            | some r6 =>
              simp only [h6, Option.some.injEq] at h
              injection h with hA hB
              subst hA
              subst hB
              have hss1 : skipSpaces r1 ≠ [] := expectChar_src_ne_nil '=' _ _ h2
              have hr1 : r1 ≠ [] := skipSpaces_arg_ne_nil r1 hss1
              have hss2 : skipSpaces r2 ≠ [] := takeRun_src_ne_nil isIdentChar _ _ h3
              have hr2 : r2 ≠ [] := skipSpaces_arg_ne_nil r2 hss2
              have hss3 : skipSpaces r3 ≠ [] := expectChar_src_ne_nil '(' _ _ h4
              have hr3 : r3 ≠ [] := skipSpaces_arg_ne_nil r3 hss3
              have hr5 : r5 ≠ [] := expectChar_src_ne_nil ')' _ _ h6
              simp only [takeRun_append isIdentChar cs j g1 r1 h1 hr1]
              rw [skipSpaces_append r1 j hss1]
              simp only [expectChar_append '=' (skipSpaces r1) j r2 h2]
              rw [skipSpaces_append r2 j hss2]
              simp only [takeRun_append isIdentChar (skipSpaces r2) j g2 r3 h3 hr3]
              rw [skipSpaces_append r3 j hss3]
              simp only [expectChar_append '(' (skipSpaces r3) j r4 h4]
              simp only [takeRun_append isClassChar r4 j g3 r5 h5 hr5]
              simp only [expectChar_append ')' r5 j r6 h6]

/-- Claim C9: the line pattern is matched only against a prefix of the
line — whenever the pattern consumes exactly `p`, the line `p ++ j`
is accepted for every trailing text `j`, which is left over and ignored,
and the stored entry is the same as for `p` alone. -/
theorem trailing_text_ignored (p j : List Char) (t : List Char × List Char × List Char)
    (h : matchAssign p = some (t, [])) :
    matchAssign (p ++ j) = some (t, j) ∧
    matchLineChars (p ++ j) = matchLineChars p := by
  have h2 := matchAssign_append p j t [] h
  rw [List.nil_append] at h2
  refine ⟨h2, ?_⟩
  unfold matchLineChars
  rw [h, h2]
  simp

/-- Witness for C9: `y = f( x1 ,x2 )` with trailing text appended. -/
theorem trailing_text_ignored_witness :
    matchAssign ("y = f( x1 ,x2 )".toList ++ " trailing ) text".toList) =
      some (("y".toList, "f".toList, " x1 ,x2 ".toList), " trailing ) text".toList) ∧
    matchLineChars ("y = f( x1 ,x2 )".toList ++ " trailing ) text".toList) =
      matchLineChars "y = f( x1 ,x2 )".toList :=
  trailing_text_ignored "y = f( x1 ,x2 )".toList " trailing ) text".toList
    ("y".toList, "f".toList, " x1 ,x2 ".toList) (by decide)
